import Mathlib

/-!
# Verification of the Gutenberg harvest/publish scripts

Shallow embedding of the two Python programs:
* `download_gutenberg_books.py` (harvester): pagination (`fetch_metadata`),
  boilerplate stripping (`strip_gutenberg_headers`), byte decoding
  (`download_book_text`), filename sanitization (`sanitize_filename`).
* `upload_gutenberg_books_invenio.py` (publisher): metadata translation
  (`create_metadata` fragments), identifier extraction
  (`extract_gutenberg_id`), and the `limit` handling of `upload_all` /
  `update_all`.

Strings are modelled as `List Char`, raw bytes as `List Nat` (each `< 256`),
Python `None`-able values as `Option`.
-/

/-! ## Python string primitives used by the scripts -/

/-- Python `\s` for the ASCII range (space, tab, newline, carriage return,
vertical tab, form feed), as used by `re.sub(r'\s+', '_', text)` and
`str.strip()`. -/
def pyIsSpace (c : Char) : Bool :=
  c == ' ' || c == '\t' || c == '\n' || c == '\r' || c == '\x0b' || c == '\x0c'

/-- Remove the trailing run of characters satisfying `p` (the right half of
Python `str.strip`). -/
def dropTrail (p : Char → Bool) (l : List Char) : List Char :=
  (l.reverse.dropWhile p).reverse

/-- Python `str.strip(chars)`: remove leading and trailing characters
satisfying `p`. -/
def stripWith (p : Char → Bool) (l : List Char) : List Char :=
  dropTrail p (l.dropWhile p)

/-- Python `sep in s` / `pat in s`: substring test.  `listHasPref pat l`
decides whether `pat` is an initial segment of `l`. -/
def listHasPref : List Char → List Char → Bool
  | [], _ => true
  | _ :: _, [] => false
  | p :: ps, x :: xs => p == x && listHasPref ps xs

/-- Python `pat in s` (substring containment). -/
def containsSub (pat : List Char) : List Char → Bool
  | [] => pat.isEmpty
  | x :: xs => listHasPref pat (x :: xs) || containsSub pat xs

/-- Python `s.split(sep)` for a one-character separator: split at every
occurrence, keeping empty segments; the result is never empty. -/
def splitOnChar (sep : Char) : List Char → List (List Char)
  | [] => [[]]
  | c :: rest =>
    if c = sep then [] :: splitOnChar sep rest
    else
      match splitOnChar sep rest with
      | [] => [[c]]
      | r :: rs => (c :: r) :: rs

/-- Decimal digit character, `chr(48 + d)`; used to model Python `str(n)`
for a nonnegative integer. -/
def digitChar (d : Nat) : Char := Char.ofNat (48 + d)

/-- Accumulator pass of the decimal printer (least significant digit first,
pushed onto `acc`). -/
def natToDigitsAux : Nat → List Char → List Char
  | 0, acc => acc
  | n + 1, acc => natToDigitsAux ((n + 1) / 10) (digitChar ((n + 1) % 10) :: acc)
decreasing_by exact Nat.div_lt_self (Nat.succ_pos n) (by decide)

/-- Python `str(n)` for a natural number `n` (decimal, no sign). -/
def natToDigits (n : Nat) : List Char :=
  if n = 0 then ['0'] else natToDigitsAux n []

/-- Python `int(s)` restricted to the unsigned decimal strings this code
feeds it: succeeds exactly on nonempty all-digit strings (anything else
raises `ValueError`, modelled as `none`). -/
def pyInt (s : List Char) : Option Nat :=
  if !s.isEmpty && s.all Char.isDigit then
    some (s.foldl (fun a c => 10 * a + (c.toNat - 48)) 0)
  else none

/-! ## Harvester: `fetch_metadata` (pagination)

The Gutendex server is modelled as the sequence of page responses the
`while` loop would see by following `next` links: each element is either a
successful page of results (`ok`) or a transport/parsing failure (`err`);
the end of the list models a response whose `next` field is `None`. -/

/-- One page response of the paginated metadata API. -/
inductive PageResp (α : Type) where
  | err : PageResp α
  | ok : List α → PageResp α

/-- The `while len(books) < num_books and url:` loop of `fetch_metadata`:
stop when enough entries are accumulated, on a missing next link (list
exhausted), or on the first error (`except: break`). -/
def fetchLoop (num : Nat) : List (PageResp α) → List α → List α
  | [], acc => acc
  | p :: ps, acc =>
    if num ≤ acc.length then acc
    else
      match p with
      | PageResp.err => acc
      | PageResp.ok rs => fetchLoop num ps (acc ++ rs)

/-- `fetch_metadata`: run the pagination loop, then `books[:num_books]`. -/
def fetch_metadata (num : Nat) (pages : List (PageResp α)) : List α :=
  (fetchLoop num pages []).take num

/-! ## Harvester: byte decoding in `download_book_text` -/

/-- latin-1 decodes one byte to the code point of the same value; a value
outside the byte range is not a byte (never produced by a response body). -/
def latin1DecodeByte (b : Nat) : Option Char :=
  if b < 256 then some (Char.ofNat b) else none

/-- `response.content.decode('latin-1')`: all-or-nothing decode of the byte
sequence. -/
def decode_latin1 : List Nat → Option (List Char)
  | [] => some []
  | b :: bs =>
    match latin1DecodeByte b, decode_latin1 bs with
    | some c, some cs => some (c :: cs)
    | _, _ => none

/-- The decode step of `download_book_text`: try UTF-8 (an arbitrary
decoder `utf8Dec`, whose behaviour is irrelevant here), fall back to
latin-1 on `UnicodeDecodeError`. -/
def download_decode (utf8Dec : List Nat → Option (List Char)) (bs : List Nat) :
    Option (List Char) :=
  match utf8Dec bs with
  | some s => some s
  | none => decode_latin1 bs

/-! ## Publisher: `limit` handling in `upload_all` and `update_all` -/

/-- `upload_all`: `if limit: metadata_files = metadata_files[:limit]`.
Python truthiness makes `None` and `0` mean "no trimming"; `files[:l]`
takes the first `l` for `l ≥ 0` and drops the last `-l` for `l < 0`. -/
def select_upload_files (limit : Option Int) (files : List α) : List α :=
  match limit with
  | none => files
  | some l =>
    if l = 0 then files
    else if 0 ≤ l then files.take l.toNat
    else files.take (files.length - (-l).toNat)

/-- The `if limit and count > limit: break` test of `update_all`. -/
def limitExceeded (limit : Option Int) (c : Int) : Bool :=
  match limit with
  | none => false
  | some l => if l = 0 then false else decide (l < c)

/-- The record loop of `update_all`: returns the records actually processed,
in order; `count` starts at `0` and is incremented before the break test. -/
def update_all_processed (limit : Option Int) : List α → Int → List α
  | [], _ => []
  | r :: rs, count =>
    if limitExceeded limit (count + 1) then []
    else r :: update_all_processed limit rs (count + 1)

/-! ## Harvester: the marker regexes of `strip_gutenberg_headers`

The six patterns are built from literal characters and a single greedy
`.+`; we embed exactly that fragment of `re`: `Tok.lit c` is a literal
character (compared case-insensitively, `re.IGNORECASE`), `Tok.anyPlus` is
`.+` (one or more characters other than a newline, greedy). -/

/-- A token of the marker patterns. -/
inductive Tok where
  | lit : Char → Tok
  | anyPlus : Tok

/-- `re.IGNORECASE` character comparison. -/
def charEqCI (c x : Char) : Bool := c.toLower == x.toLower

/-- Greedy `.+` followed by a continuation matcher `f` (the match length of
the remaining tokens): consume at least one non-newline character,
preferring the longest consumption, exactly as the backtracking engine
does; returns the total number of characters consumed. -/
def greedyAny (f : List Char → Option Nat) : List Char → Option Nat
  | [] => none
  | x :: xs =>
    if x = '\n' then none
    else
      match greedyAny f xs with
      | some n => some (n + 1)
      | none =>
        match f xs with
        | some m => some (m + 1)
        | none => none

/-- Anchored match of a token list at the head of `xs`; returns the number
of characters consumed (greedy `.+`). -/
def matchToks : List Tok → List Char → Option Nat
  | [], _ => some 0
  | Tok.lit c :: ts, xs =>
    match xs with
    | [] => none
    | x :: rest =>
      if charEqCI c x then (matchToks ts rest).map (fun n => n + 1) else none
  | Tok.anyPlus :: ts, xs => greedyAny (matchToks ts) xs

/-- Leftmost search, trying each start position in order. -/
def searchAux (p : List Tok) : List Char → Nat → Option (Nat × Nat)
  | [], i =>
    match matchToks p [] with
    | some n => some (i, i + n)
    | none => none
  | x :: rest, i =>
    match matchToks p (x :: rest) with
    | some n => some (i, i + n)
    | none => searchAux p rest (i + 1)

/-- `re.search(pattern, text, re.IGNORECASE)`: `some (start, end)` of the
leftmost match, or `none`. -/
def reSearch (p : List Tok) (text : List Char) : Option (Nat × Nat) :=
  searchAux p text 0

/-- Literal pattern fragment. -/
def litToks (s : List Char) : List Tok := s.map Tok.lit

/-- `r'\*\*\* START OF THIS PROJECT GUTENBERG EBOOK .+ \*\*\*'` -/
def startMarker1 : List Tok :=
  litToks ("*** START OF THIS PROJECT GUTENBERG EBOOK ".toList) ++
    [Tok.anyPlus] ++ litToks (" ***".toList)

/-- `r'\*\*\*START OF THE PROJECT GUTENBERG EBOOK .+ \*\*\*'` -/
def startMarker2 : List Tok :=
  litToks ("***START OF THE PROJECT GUTENBERG EBOOK ".toList) ++
    [Tok.anyPlus] ++ litToks (" ***".toList)

/-- `r'START OF THIS PROJECT GUTENBERG EBOOK'` -/
def startMarker3 : List Tok :=
  litToks ("START OF THIS PROJECT GUTENBERG EBOOK".toList)

/-- The ordered `start_markers` list. -/
def start_markers : List (List Tok) := [startMarker1, startMarker2, startMarker3]

/-- `r'\*\*\* END OF THIS PROJECT GUTENBERG EBOOK .+ \*\*\*'` -/
def endMarker1 : List Tok :=
  litToks ("*** END OF THIS PROJECT GUTENBERG EBOOK ".toList) ++
    [Tok.anyPlus] ++ litToks (" ***".toList)

/-- `r'\*\*\*END OF THE PROJECT GUTENBERG EBOOK .+ \*\*\*'` -/
def endMarker2 : List Tok :=
  litToks ("***END OF THE PROJECT GUTENBERG EBOOK ".toList) ++
    [Tok.anyPlus] ++ litToks (" ***".toList)

/-- `r'END OF THIS PROJECT GUTENBERG EBOOK'` -/
def endMarker3 : List Tok :=
  litToks ("END OF THIS PROJECT GUTENBERG EBOOK".toList)

/-- The ordered `end_markers` list. -/
def end_markers : List (List Tok) := [endMarker1, endMarker2, endMarker3]

/-- The `for marker in ...: if match: ...; break` loop shared by the start
and end searches: the first marker, in list order, whose search succeeds. -/
def findMarkerLoop (markers : List (List Tok)) (text : List Char) :
    Option (Nat × Nat) :=
  match markers with
  | [] => none
  | m :: ms =>
    match reSearch m text with
    | some r => some r
    | none => findMarkerLoop ms text

/-- `start_pos`: `match.end()` of the first matching start marker, else 0. -/
def resolve_start_pos (text : List Char) : Nat :=
  match findMarkerLoop start_markers text with
  | some r => r.2
  | none => 0

/-- `end_pos`: `match.start()` of the first matching end marker, else
`len(text)`. -/
def resolve_end_pos (text : List Char) : Nat :=
  match findMarkerLoop end_markers text with
  | some r => r.1
  | none => text.length

/-- `strip_gutenberg_headers`: `text[start_pos:end_pos].strip()`. -/
def strip_gutenberg_headers (text : List Char) : List Char :=
  stripWith pyIsSpace
    ((text.drop (resolve_start_pos text)).take
      (resolve_end_pos text - resolve_start_pos text))

/-- `download_book_text` after a successful transport: decode the bytes
(UTF-8 with latin-1 fallback) and strip the boilerplate; a transport error
(`transport = none`) yields `None`. -/
def download_book_text (transport : Option (List Nat))
    (utf8Dec : List Nat → Option (List Char)) : Option (List Char) :=
  match transport with
  | none => none
  | some bs => (download_decode utf8Dec bs).map strip_gutenberg_headers

/-! ## Harvester: `sanitize_filename` -/

/-- The character class `[<>:"/\\|?*]` removed by the first `re.sub`. -/
def illegalChar (c : Char) : Bool :=
  (['<', '>', ':', '"', '/', '\\', '|', '?', '*'] : List Char).contains c

/-- The strip set of `text.strip('._')`. -/
def isStripChar (c : Char) : Bool := c == '.' || c == '_'

/-- `re.sub(r'\s+', '_', text)`: replace each maximal whitespace run with a
single underscore.  `inRun` records whether the previous character was part
of a whitespace run. -/
def collapseWsAux : Bool → List Char → List Char
  | _, [] => []
  | inRun, c :: rest =>
    if pyIsSpace c then
      if inRun then collapseWsAux true rest
      else '_' :: collapseWsAux true rest
    else c :: collapseWsAux false rest

/-- The first three statements of `sanitize_filename`: remove illegal
characters, collapse whitespace to underscores, strip `'._'` at both
ends. -/
def sanitize_core (text : List Char) : List Char :=
  stripWith isStripChar (collapseWsAux false (text.filter (fun c => !illegalChar c)))

/-- Python `s.rsplit('_', 1)[0]`: everything before the last underscore, or
the whole string when it has none. -/
def rsplitHead (l : List Char) : List Char :=
  if l.contains '_' then ((l.reverse.dropWhile (fun c => c != '_')).drop 1).reverse
  else l

/-- `sanitize_filename`: the cleaned text, truncated (at the last
underscore of the truncated prefix, when present) if longer than
`maxLength`. -/
def sanitize_filename (text : List Char) (maxLength : Nat) : List Char :=
  if maxLength < (sanitize_core text).length then
    rsplitHead ((sanitize_core text).take maxLength)
  else sanitize_core text

/-! ## Publisher: `create_metadata` fragments -/

/-- The person fields emitted for one creator/contributor: the raw `name`,
plus `given_name` / `family_name` keys that are present only when their
value is truthy (a nonempty string). -/
structure PersonOrOrg where
  name : List Char
  given_name : Option (List Char)
  family_name : Option (List Char)
deriving DecidableEq

/-- The `"Last, First"` parsing block of `create_metadata` (identical for
authors, editors and translators): split on the first comma, strip both
parts; a name without a comma is all family name; empty parts leave the
corresponding key absent. -/
def mkPerson (nm : List Char) : PersonOrOrg :=
  if ',' ∈ nm then
    { name := nm
      given_name :=
        let given := stripWith pyIsSpace ((nm.dropWhile (fun c => c != ',')).drop 1)
        if given.isEmpty then none else some given
      family_name :=
        let family := stripWith pyIsSpace (nm.takeWhile (fun c => c != ','))
        if family.isEmpty then none else some family }
  else
    { name := nm
      given_name := none
      family_name := if nm.isEmpty then none else some nm }

/-- The creator list of `create_metadata`: one entry per author (a missing
`name` key defaults to `"Unknown Author"`); an empty author list yields the
single synthetic `"Unknown Author"` entry with family `"Unknown"` and no
given name. -/
def create_creators (authors : List (Option (List Char))) : List PersonOrOrg :=
  let creators := authors.map (fun a => mkPerson (a.getD ("Unknown Author".toList)))
  if creators.isEmpty then
    [{ name := "Unknown Author".toList
       given_name := none
       family_name := some ("Unknown".toList) }]
  else creators

/-- A contributor as emitted by `create_metadata`: a person plus a role id. -/
structure Contributor where
  person : PersonOrOrg
  role : List Char
deriving DecidableEq

/-- Editor contributor (`role = "editor"`); a missing name defaults to
`"Unknown Editor"`. -/
def mkEditor (e : Option (List Char)) : Contributor :=
  { person := mkPerson (e.getD ("Unknown Editor".toList)), role := "editor".toList }

/-- Translator contributor (`role = "other"`, no translator role in the
vocabulary); a missing name defaults to `"Unknown Translator"`. -/
def mkTranslator (t : Option (List Char)) : Contributor :=
  { person := mkPerson (t.getD ("Unknown Translator".toList)), role := "other".toList }

/-- The contributor list of `create_metadata`: editors first, then
translators. -/
def create_contributors (editors translators : List (Option (List Char))) :
    List Contributor :=
  editors.map mkEditor ++ translators.map mkTranslator

/-- The language-conversion loop of `create_metadata`.  `table` models the
optional `pycountry` lookup: `none` when the import failed; otherwise a map
from a two-letter code to its three-letter form, `none` standing both for a
code with no entry and for an entry without an `alpha_3` field (the
`AttributeError`/fallback branches, which both keep the original code). -/
def convert_languages (table : Option (List Char → Option (List Char)))
    (langs : List (List Char)) : List (List Char) :=
  langs.map (fun code =>
    match table with
    | none => code
    | some f => if code.length = 2 then (f code).getD code else code)

/-- Per-code conversion rule as the spec states it (used to compare with
the mapped loop). -/
def langConvSpec (table : Option (List Char → Option (List Char)))
    (code : List Char) : List Char :=
  match table with
  | none => code
  | some f =>
    if code.length = 2 then
      match f code with
      | some m => m
      | none => code
    else code

/-- The `additional_descriptions` string of `create_metadata` for book
identifier `id`:
`f"Project Gutenberg eBook #{id}. Downloaded from https://www.gutenberg.org/ebooks/{id}"`. -/
def additional_description (id : Nat) : List Char :=
  ("Project Gutenberg eBook #".toList) ++ natToDigits id ++
    (". Downloaded from https://www.gutenberg.org/ebooks/".toList) ++ natToDigits id

/-- `extract_gutenberg_id`, over the list of `additional_descriptions`
description strings of a record: the first description containing
`'Project Gutenberg eBook #'` whose `split('#')[1].split('.')[0]` parses as
an integer yields that integer; `IndexError`/`ValueError` fall through to
the next description; otherwise `None`. -/
def extract_gutenberg_id (descs : List (List Char)) : Option Nat :=
  match descs with
  | [] => none
  | d :: rest =>
    if containsSub ("Project Gutenberg eBook #".toList) d then
      match (splitOnChar '#' d).get? 1 with
      | some seg =>
        match pyInt ((splitOnChar '.' seg).headD []) with
        | some n => some n
        | none => extract_gutenberg_id rest
      | none => extract_gutenberg_id rest
    else extract_gutenberg_id rest

/-! # Theorems -/

/-! ## Pagination (`fetch_metadata`) -/

theorem fetchLoop_stops_at_err {α : Type} (num : Nat) (goods : List (List α))
    (rest : List (PageResp α)) :
    ∀ acc : List α, (acc ++ goods.flatten).length < num →
      fetchLoop num (goods.map PageResp.ok ++ PageResp.err :: rest) acc =
        acc ++ goods.flatten := by
  induction goods with
  | nil =>
    intro acc h
    simp only [List.flatten_nil, List.append_nil] at h ⊢
    simp [fetchLoop, Nat.not_le.mpr h]
  | cons g gs ih =>
    intro acc h
    have hlen : acc.length < num := by
      have : acc.length ≤ (acc ++ (g :: gs).flatten).length := by
        simp [List.length_append]
      omega
    simp only [List.map_cons, List.cons_append, fetchLoop]
    rw [if_neg (Nat.not_le.mpr hlen)]
    have h2 : ((acc ++ g) ++ gs.flatten).length < num := by
      simp only [List.flatten_cons] at h
      simpa [List.append_assoc] using h
    exact (ih (acc ++ g) h2).trans (by simp [List.flatten_cons, List.append_assoc])

/-- C4: if the request for the Nth page fails (transport or parsing error),
`fetch_metadata` returns the concatenation of the entries of pages
`1..N-1`, in order, without a fatal error; the hypothesis says page `N` is
actually requested (the first `N-1` pages have not yet reached the
requested count). -/
theorem fetch_metadata_partial_on_error {α : Type} (num : Nat)
    (goods : List (List α)) (rest : List (PageResp α))
    (h : goods.flatten.length < num) :
    fetch_metadata num (goods.map PageResp.ok ++ PageResp.err :: rest) =
      goods.flatten := by
  unfold fetch_metadata
  rw [fetchLoop_stops_at_err num goods rest [] (by simpa using h)]
  simp [List.take_of_length_le (Nat.le_of_lt h)]

theorem fetch_metadata_partial_on_error_witness :
    ([[1, 2], [3]] : List (List Nat)).flatten.length < 5 ∧
      fetch_metadata 5
        (([[1, 2], [3]] : List (List Nat)).map PageResp.ok ++
          PageResp.err :: [PageResp.ok [9]]) = [1, 2, 3] :=
  ⟨by decide, fetch_metadata_partial_on_error 5 [[1, 2], [3]] [PageResp.ok [9]] (by decide)⟩

theorem fetchLoop_take_of_enough {α : Type} (num : Nat) (pagess : List (List α)) :
    ∀ acc : List α, num ≤ (acc ++ pagess.flatten).length →
      (fetchLoop num (pagess.map PageResp.ok) acc).take num =
        (acc ++ pagess.flatten).take num := by
  induction pagess with
  | nil =>
    intro acc h
    simp [fetchLoop]
  | cons g gs ih =>
    intro acc h
    by_cases hacc : num ≤ acc.length
    · simp only [List.map_cons, fetchLoop, if_pos hacc]
      rw [List.take_append_of_le_length hacc]
    · simp only [List.map_cons, fetchLoop, if_neg hacc]
      have h2 : num ≤ ((acc ++ g) ++ gs.flatten).length := by
        simp only [List.flatten_cons] at h
        simpa [List.append_assoc] using h
      rw [ih (acc ++ g) h2]
      simp [List.flatten_cons, List.append_assoc]

/-- C5: when the pages together yield at least the requested count, the
returned list is exactly the first `num` entries in original page order,
and its length is exactly `num`; an overshooting last page is trimmed. -/
theorem fetch_metadata_trims_to_count {α : Type} (num : Nat)
    (pagess : List (List α)) (h : num ≤ pagess.flatten.length) :
    fetch_metadata num (pagess.map PageResp.ok) = pagess.flatten.take num ∧
      (fetch_metadata num (pagess.map PageResp.ok)).length = num := by
  have hmain : fetch_metadata num (pagess.map PageResp.ok) = pagess.flatten.take num := by
    unfold fetch_metadata
    rw [fetchLoop_take_of_enough num pagess [] (by simpa using h)]
    simp
  refine ⟨hmain, ?_⟩
  rw [hmain, List.length_take]
  omega

theorem fetch_metadata_trims_to_count_witness :
    3 ≤ ([[1, 2], [3, 4]] : List (List Nat)).flatten.length ∧
      fetch_metadata 3 (([[1, 2], [3, 4]] : List (List Nat)).map PageResp.ok) =
        [1, 2, 3] :=
  ⟨by decide, by
    have h := (fetch_metadata_trims_to_count 3 ([[1, 2], [3, 4]] : List (List Nat))
      (by decide)).1
    rw [h]; rfl⟩

/-! ## Byte decoding (`download_book_text`) -/

theorem decode_latin1_total (bs : List Nat) (h : ∀ b ∈ bs, b < 256) :
    ∃ s, decode_latin1 bs = some s := by
  induction bs with
  | nil => exact ⟨[], rfl⟩
  | cons b rest ih =>
    obtain ⟨s, hs⟩ := ih (fun x hx => h x (List.mem_cons_of_mem b hx))
    have hb : b < 256 := h b (List.mem_cons_self b rest)
    refine ⟨Char.ofNat b :: s, ?_⟩
    simp [decode_latin1, latin1DecodeByte, hb, hs]

/-- C8: the latin-1 fallback accepts every byte sequence, so the
UTF-8-then-latin-1 decode of `download_book_text` always yields a string,
whatever the primary decoder does; a per-book `None` can only come from the
transport, never from decoding. -/
theorem download_decode_total (utf8Dec : List Nat → Option (List Char))
    (bs : List Nat) (h : ∀ b ∈ bs, b < 256) :
    (∃ s, download_decode utf8Dec bs = some s) ∧
      (∃ t, download_book_text (some bs) utf8Dec = some t) ∧
      download_book_text none utf8Dec = none := by
  have hdec : ∃ s, download_decode utf8Dec bs = some s := by
    unfold download_decode
    cases hu : utf8Dec bs with
    | some s => exact ⟨s, rfl⟩
    | none => exact decode_latin1_total bs h
  obtain ⟨s, hs⟩ := hdec
  refine ⟨⟨s, hs⟩, ⟨strip_gutenberg_headers s, ?_⟩, rfl⟩
  simp [download_book_text, hs]

theorem download_decode_total_witness :
    (∀ b ∈ ([0, 255, 128, 65] : List Nat), b < 256) ∧
      ∃ s, download_decode (fun _ => none) [0, 255, 128, 65] = some s :=
  ⟨by decide, (download_decode_total (fun _ => none) [0, 255, 128, 65] (by decide)).1⟩

/-! ## `limit` handling (`upload_all` / `update_all`) -/

theorem update_all_processed_zero {α : Type} (rs : List α) :
    ∀ count : Int, update_all_processed (some 0) rs count = rs := by
  induction rs with
  | nil => intro count; rfl
  | cons r rest ih =>
    intro count
    simp [update_all_processed, limitExceeded, ih]

theorem update_all_processed_pos {α : Type} (l : Int) (hl : 0 < l) (rs : List α) :
    ∀ count : Int, 0 ≤ count →
      update_all_processed (some l) rs count = rs.take (l - count).toNat := by
  induction rs with
  | nil => intro count _; simp [update_all_processed]
  | cons r rest ih =>
    intro count hc
    have hne : l ≠ 0 := by omega
    by_cases hbr : l < count + 1
    · have h0 : (l - count).toNat = 0 := by omega
      simp [update_all_processed, limitExceeded, hne, hbr, h0]
    · have hsucc : (l - count).toNat = (l - (count + 1)).toNat + 1 := by omega
      simp only [update_all_processed, limitExceeded, if_neg hne]
      rw [if_neg (by simpa using hbr)]
      rw [ih (count + 1) (by omega), hsucc, List.take_succ_cons]

/-- C10: a `limit` of `0` is falsy in Python, so `upload_all(limit=0)`
processes every metadata file and `update_all(limit=0)` processes every
record; a positive limit `n` restricts processing to the first `n`
items. -/
theorem limit_zero_means_no_limit {α β : Type} (files : List α) (records : List β) :
    select_upload_files (some 0) files = files ∧
      update_all_processed (some 0) records 0 = records ∧
      select_upload_files none files = files ∧
      ∀ n : Nat, 0 < n →
        select_upload_files (some (n : Int)) files = files.take n ∧
          update_all_processed (some (n : Int)) records 0 = records.take n := by
  refine ⟨by simp [select_upload_files], update_all_processed_zero records 0, rfl, ?_⟩
  intro n hn
  constructor
  · have hne : (n : Int) ≠ 0 := by omega
    simp [select_upload_files, hne]
  · rw [update_all_processed_pos (n : Int) (by omega) records 0 (by omega)]
    norm_num

theorem limit_zero_means_no_limit_witness :
    (0 : Nat) < 2 ∧
      select_upload_files (some ((2 : Nat) : Int)) [10, 20, 30] = [10, 20] ∧
      update_all_processed (some ((2 : Nat) : Int)) [4, 5, 6] 0 = [4, 5] := by
  have h := (limit_zero_means_no_limit ([10, 20, 30] : List Nat)
    ([4, 5, 6] : List Nat)).2.2.2 2 (by decide)
  exact ⟨by decide, by rw [h.1]; rfl, by rw [h.2]; rfl⟩

/-! ## Language conversion (`create_metadata`) -/

/-- C7: language codes are converted pointwise — a two-letter code with a
known mapping becomes its three-letter form; a two-letter code with no
mapping, a code of any other length, or any code when the table is
unavailable, passes through unchanged — and the output list preserves the
input order and length. -/
theorem create_metadata_language_conversion
    (table : Option (List Char → Option (List Char))) (langs : List (List Char)) :
    (convert_languages table langs).length = langs.length ∧
      (∀ i : Nat, (convert_languages table langs)[i]? = langs[i]?.map (langConvSpec table)) ∧
      (∀ f code m, code.length = 2 → f code = some m →
        langConvSpec (some f) code = m) ∧
      (∀ f code, code.length = 2 → f code = none →
        langConvSpec (some f) code = code) ∧
      (∀ f code, code.length ≠ 2 → langConvSpec (some f) code = code) ∧
      (∀ code, langConvSpec none code = code) := by
  refine ⟨List.length_map _ _, ?_, ?_, ?_, ?_, ?_⟩
  · intro i
    rw [convert_languages, List.getElem?_map _ langs i]
    cases langs[i]? with
    | none => rfl
    | some code =>
      simp only [Option.map_some']
      cases table with
      | none => rfl
      | some f =>
        by_cases h2 : code.length = 2
        · simp only [langConvSpec, if_pos h2]
          cases f code <;> rfl
        · simp only [langConvSpec, if_neg h2]
  · intro f code m h2 hm
    simp [langConvSpec, h2, hm]
  · intro f code h2 hm
    simp [langConvSpec, h2, hm]
  · intro f code h2
    simp [langConvSpec, h2]
  · intro code
    rfl

theorem create_metadata_language_conversion_witness :
    ("en".toList).length = 2 ∧
      (fun c => if c = ("en".toList) then some ("eng".toList) else none) ("en".toList) =
        some ("eng".toList) ∧
      langConvSpec (some (fun c => if c = ("en".toList) then some ("eng".toList) else none))
        ("en".toList) = ("eng".toList) :=
  ⟨by decide, by decide,
    (create_metadata_language_conversion
      (some (fun c => if c = ("en".toList) then some ("eng".toList) else none)) []).2.2.1
      (fun c => if c = ("en".toList) then some ("eng".toList) else none)
      ("en".toList) ("eng".toList) (by decide) (by decide)⟩

/-! ## Author/editor/translator name parsing (`create_metadata`) -/

theorem dropWhile_ne_mem (a : Char) :
    ∀ l : List Char, a ∈ l → ∃ t, l.dropWhile (fun c => c != a) = a :: t := by
  intro l hl
  induction l with
  | nil => cases hl
  | cons x xs ih =>
    by_cases hx : x = a
    · subst hx
      exact ⟨xs, by simp [List.dropWhile]⟩
    · have hmem : a ∈ xs := by
        cases List.mem_cons.mp hl with
        | inl h => exact absurd h.symm hx
        | inr h => exact h
      obtain ⟨t, ht⟩ := ih hmem
      refine ⟨t, ?_⟩
      rw [List.dropWhile_cons]
      simp only [bne_iff_ne, ne_eq, hx, not_false_eq_true, if_true]
      exact ht

/-- C6: a name containing a comma splits at its first comma (the part
before the first comma contains none) into a whitespace-trimmed family and
given part; a name without a comma becomes the family name whole, with no
given name; an empty author list yields exactly the synthetic
`"Unknown Author"` creator with no given name; editors and translators are
parsed by the same rule, with roles `"editor"` and `"other"`. -/
theorem create_metadata_name_parsing :
    (∀ nm : List Char, ',' ∈ nm →
      ∃ pre post, nm = pre ++ ',' :: post ∧ ',' ∉ pre ∧
        mkPerson nm =
          { name := nm
            given_name :=
              if (stripWith pyIsSpace post).isEmpty then none
              else some (stripWith pyIsSpace post)
            family_name :=
              if (stripWith pyIsSpace pre).isEmpty then none
              else some (stripWith pyIsSpace pre) }) ∧
    (∀ nm : List Char, ',' ∉ nm →
      mkPerson nm =
        { name := nm
          given_name := none
          family_name := if nm.isEmpty then none else some nm }) ∧
    create_creators [] =
      [{ name := "Unknown Author".toList
         given_name := none
         family_name := some ("Unknown".toList) }] ∧
    (∀ e, (mkEditor e).role = "editor".toList ∧
      (mkEditor e).person = mkPerson (e.getD ("Unknown Editor".toList))) ∧
    (∀ t, (mkTranslator t).role = "other".toList ∧
      (mkTranslator t).person = mkPerson (t.getD ("Unknown Translator".toList))) := by
  refine ⟨?_, ?_, rfl, fun e => ⟨rfl, rfl⟩, fun t => ⟨rfl, rfl⟩⟩
  · intro nm hmem
    obtain ⟨t, ht⟩ := dropWhile_ne_mem ',' nm hmem
    refine ⟨nm.takeWhile (fun c => c != ','), t, ?_, ?_, ?_⟩
    · conv_lhs => rw [(List.takeWhile_append_dropWhile (fun c => c != ',') nm).symm]
      rw [ht]
    · intro hc
      have := List.mem_takeWhile_imp hc
      simp at this
    · have hgiven : (nm.dropWhile (fun c => c != ',')).drop 1 = t := by
        rw [ht]; rfl
      rw [mkPerson, if_pos hmem, hgiven]
  · intro nm hmem
    rw [mkPerson, if_neg hmem]

theorem create_metadata_name_parsing_witness :
    (',' ∈ ("Doe, Jane".toList)) ∧
      (∃ pre post, ("Doe, Jane".toList) = pre ++ ',' :: post ∧ ',' ∉ pre ∧
        mkPerson ("Doe, Jane".toList) =
          { name := ("Doe, Jane".toList)
            given_name :=
              if (stripWith pyIsSpace post).isEmpty then none
              else some (stripWith pyIsSpace post)
            family_name :=
              if (stripWith pyIsSpace pre).isEmpty then none
              else some (stripWith pyIsSpace pre) }) ∧
      (',' ∉ ("Plato".toList)) ∧
      mkPerson ("Plato".toList) =
        { name := ("Plato".toList)
          given_name := none
          family_name := some ("Plato".toList) } :=
  ⟨by decide, create_metadata_name_parsing.1 ("Doe, Jane".toList) (by decide),
    by decide, by
      have h := create_metadata_name_parsing.2.1 ("Plato".toList) (by decide)
      rw [h]; decide⟩

/-! ## Identifier round trip (`create_metadata` / `extract_gutenberg_id`) -/

theorem digitChar_isDigit (d : Nat) (h : d < 10) : (digitChar d).isDigit = true := by
  interval_cases d <;> decide

theorem digitChar_toNat (d : Nat) (h : d < 10) : (digitChar d).toNat - 48 = d := by
  interval_cases d <;> decide

theorem natToDigitsAux_append (n : Nat) :
    ∀ acc, natToDigitsAux n acc = natToDigitsAux n [] ++ acc := by
  induction n using Nat.strong_induction_on with
  | _ n ih =>
    match n with
    | 0 => intro acc; simp [natToDigitsAux]
    | m + 1 =>
      intro acc
      have hlt : (m + 1) / 10 < m + 1 := Nat.div_lt_self (Nat.succ_pos m) (by decide)
      simp only [natToDigitsAux]
      rw [ih _ hlt (digitChar ((m + 1) % 10) :: acc), ih _ hlt [digitChar ((m + 1) % 10)]]
      simp

theorem natToDigitsAux_all_digit (n : Nat) :
    ∀ acc, (∀ c ∈ acc, c.isDigit = true) →
      ∀ c ∈ natToDigitsAux n acc, c.isDigit = true := by
  induction n using Nat.strong_induction_on with
  | _ n ih =>
    match n with
    | 0 => intro acc hacc; simpa [natToDigitsAux] using hacc
    | m + 1 =>
      intro acc hacc
      have hlt : (m + 1) / 10 < m + 1 := Nat.div_lt_self (Nat.succ_pos m) (by decide)
      simp only [natToDigitsAux]
      refine ih _ hlt _ ?_
      intro c hc
      cases List.mem_cons.mp hc with
      | inl h => subst h; exact digitChar_isDigit _ (Nat.mod_lt _ (by decide))
      | inr h => exact hacc c h

theorem natToDigitsAux_foldl (n : Nat) :
    ∀ a : Nat,
      (natToDigitsAux n []).foldl (fun a c => 10 * a + (c.toNat - 48)) a =
        a * 10 ^ (natToDigitsAux n []).length + n := by
  induction n using Nat.strong_induction_on with
  | _ n ih =>
    match n with
    | 0 => intro a; simp [natToDigitsAux]
    | m + 1 =>
      intro a
      have hlt : (m + 1) / 10 < m + 1 := Nat.div_lt_self (Nat.succ_pos m) (by decide)
      have hrw : natToDigitsAux (m + 1) [] =
          natToDigitsAux ((m + 1) / 10) [] ++ [digitChar ((m + 1) % 10)] := by
        simp only [natToDigitsAux]
        exact natToDigitsAux_append _ _
      have hd : (digitChar ((m + 1) % 10)).toNat - 48 = (m + 1) % 10 :=
        digitChar_toNat _ (Nat.mod_lt _ (by decide))
      have hdm : 10 * ((m + 1) / 10) + (m + 1) % 10 = m + 1 := Nat.div_add_mod (m + 1) 10
      rw [hrw, List.foldl_append, ih _ hlt a]
      simp only [List.foldl_cons, List.foldl_nil, List.length_append, List.length_cons,
        List.length_nil, Nat.zero_add]
      rw [hd]
      calc 10 * (a * 10 ^ (natToDigitsAux ((m + 1) / 10) []).length + (m + 1) / 10) +
            (m + 1) % 10
          = a * (10 ^ (natToDigitsAux ((m + 1) / 10) []).length * 10) +
            (10 * ((m + 1) / 10) + (m + 1) % 10) := by ring
        _ = a * 10 ^ ((natToDigitsAux ((m + 1) / 10) []).length + 1) + (m + 1) := by
            rw [hdm, pow_succ]

theorem natToDigits_all_digit (n : Nat) : ∀ c ∈ natToDigits n, c.isDigit = true := by
  unfold natToDigits
  by_cases h : n = 0
  · rw [if_pos h]; intro c hc
    rcases List.mem_singleton.mp hc with rfl
    decide
  · rw [if_neg h]
    exact natToDigitsAux_all_digit n [] (by intro c hc; cases hc)

theorem natToDigits_ne_nil (n : Nat) : natToDigits n ≠ [] := by
  unfold natToDigits
  by_cases h : n = 0
  · rw [if_pos h]; simp
  · rw [if_neg h]
    match n, h with
    | m + 1, _ =>
      simp only [natToDigitsAux]
      rw [natToDigitsAux_append _ [digitChar ((m + 1) % 10)]]
      simp

theorem pyInt_natToDigits (n : Nat) : pyInt (natToDigits n) = some n := by
  have hne : (natToDigits n).isEmpty = false := by
    cases hl : natToDigits n with
    | nil => exact absurd hl (natToDigits_ne_nil n)
    | cons c cs => rfl
  have hall : (natToDigits n).all Char.isDigit = true :=
    List.all_eq_true.mpr (fun c hc => natToDigits_all_digit n c hc)
  unfold pyInt
  rw [hne, hall]
  simp only [Bool.not_false, Bool.true_and, if_true]
  congr 1
  unfold natToDigits
  by_cases h : n = 0
  · rw [if_pos h, h]; decide
  · rw [if_neg h]
    have := natToDigitsAux_foldl n 0
    simpa using this

theorem splitOnChar_ne_nil (sep : Char) : ∀ l, splitOnChar sep l ≠ [] := by
  intro l
  induction l with
  | nil => simp [splitOnChar]
  | cons c rest ih =>
    rw [splitOnChar]
    by_cases h : c = sep
    · rw [if_pos h]; simp
    · rw [if_neg h]
      cases hs : splitOnChar sep rest with
      | nil => simp
      | cons r rs => simp

theorem splitOnChar_not_mem (sep : Char) :
    ∀ l : List Char, sep ∉ l → splitOnChar sep l = [l] := by
  intro l
  induction l with
  | nil => intro _; rfl
  | cons c rest ih =>
    intro h
    have hc : ¬ c = sep := fun he => h (he ▸ List.mem_cons_self c rest)
    have hrest : sep ∉ rest := fun hm => h (List.mem_cons_of_mem c hm)
    rw [splitOnChar, if_neg hc, ih hrest]

theorem splitOnChar_append (sep : Char) :
    ∀ l1 l2 : List Char, sep ∉ l1 →
      splitOnChar sep (l1 ++ sep :: l2) = l1 :: splitOnChar sep l2 := by
  intro l1
  induction l1 with
  | nil =>
    intro l2 _
    simp only [List.nil_append]
    rw [splitOnChar, if_pos rfl]
  | cons c cs ih =>
    intro l2 h
    have hc : ¬ c = sep := fun he => h (he ▸ List.mem_cons_self c cs)
    have hcs : sep ∉ cs := fun hm => h (List.mem_cons_of_mem c hm)
    simp only [List.cons_append]
    rw [splitOnChar, if_neg hc, ih l2 hcs]

theorem listHasPref_self_append : ∀ p r : List Char, listHasPref p (p ++ r) = true := by
  intro p
  induction p with
  | nil => intro r; rfl
  | cons c cs ih => intro r; simp [listHasPref, ih r]

theorem containsSub_self_append (p r : List Char) : containsSub p (p ++ r) = true := by
  cases p with
  | nil =>
    cases r with
    | nil => rfl
    | cons x xs => simp [containsSub, listHasPref]
  | cons c cs =>
    have h := listHasPref_self_append (c :: cs) r
    rw [List.cons_append] at h
    simp [containsSub, h]

/-- C1: the additional-description string built by `create_metadata` for
identifier `n` contains `'Project Gutenberg eBook #'`, and
`extract_gutenberg_id` recovers `n` from it by taking the substring between
the first `'#'` and the following `'.'` — extraction is a left inverse of
the embedding for every numeric identifier. -/
theorem extract_gutenberg_id_left_inverse (n : Nat) :
    extract_gutenberg_id [additional_description n] = some n := by
  have hdig := natToDigits_all_digit n
  have hhash : '#' ∉ natToDigits n := fun h => absurd (hdig '#' h) (by decide)
  have hdot : '.' ∉ natToDigits n := fun h => absurd (hdig '.' h) (by decide)
  have hdesc : additional_description n =
      ("Project Gutenberg eBook ".toList) ++ '#' ::
        (natToDigits n ++
          ((". Downloaded from https://www.gutenberg.org/ebooks/".toList) ++
            natToDigits n)) := by
    unfold additional_description
    rw [show ("Project Gutenberg eBook #".toList) =
      ("Project Gutenberg eBook ".toList) ++ ['#'] from by decide]
    simp [List.append_assoc]
  have hcont : containsSub ("Project Gutenberg eBook #".toList)
      (additional_description n) = true := by
    exact containsSub_self_append _ _
  have hhashP : '#' ∉ ("Project Gutenberg eBook ".toList) := by decide
  have hhashR : '#' ∉ natToDigits n ++
      ((". Downloaded from https://www.gutenberg.org/ebooks/".toList) ++
        natToDigits n) := by
    intro hm
    rcases List.mem_append.mp hm with h1 | h2
    · exact hhash h1
    rcases List.mem_append.mp h2 with h3 | h4
    · revert h3; decide
    · exact hhash h4
  have hsplit1 : splitOnChar '#' (additional_description n) =
      [("Project Gutenberg eBook ".toList),
        natToDigits n ++
          ((". Downloaded from https://www.gutenberg.org/ebooks/".toList) ++
            natToDigits n)] := by
    rw [hdesc, splitOnChar_append '#' _ _ hhashP, splitOnChar_not_mem '#' _ hhashR]
  have hsplit2 : splitOnChar '.'
      (natToDigits n ++
        ((". Downloaded from https://www.gutenberg.org/ebooks/".toList) ++
          natToDigits n)) =
      natToDigits n :: splitOnChar '.'
        ((" Downloaded from https://www.gutenberg.org/ebooks/".toList) ++
          natToDigits n) := by
    rw [show (". Downloaded from https://www.gutenberg.org/ebooks/".toList) =
      '.' :: (" Downloaded from https://www.gutenberg.org/ebooks/".toList) from by decide]
    rw [List.cons_append]
    exact splitOnChar_append '.' _ _ hdot
  simp only [extract_gutenberg_id, hcont, if_true, hsplit1]
  simp only [List.get?, hsplit2, List.headD, pyInt_natToDigits n]

/-! ## Filename sanitization (`sanitize_filename`) -/

theorem append_of_dropTrail (p : Char → Bool) (l : List Char) :
    dropTrail p l ++ (l.reverse.takeWhile p).reverse = l := by
  calc dropTrail p l ++ (l.reverse.takeWhile p).reverse
      = (l.reverse.takeWhile p ++ l.reverse.dropWhile p).reverse := by
        rw [List.reverse_append]; rfl
    _ = (l.reverse).reverse := by rw [List.takeWhile_append_dropWhile]
    _ = l := List.reverse_reverse l

theorem stripWith_decomp (p : Char → Bool) (l : List Char) :
    ∃ pre post, pre ++ (stripWith p l ++ post) = l := by
  refine ⟨l.takeWhile p, ((l.dropWhile p).reverse.takeWhile p).reverse, ?_⟩
  rw [stripWith, append_of_dropTrail p (l.dropWhile p),
    List.takeWhile_append_dropWhile]

theorem head?_append_eq {a b : List Char} {c : Char} (h : a.head? = some c) :
    (a ++ b).head? = some c := by
  cases a with
  | nil => cases h
  | cons x xs => exact h

theorem head?_dropWhile (p : Char → Bool) :
    ∀ (l : List Char) (c : Char), (l.dropWhile p).head? = some c → p c = false := by
  intro l
  induction l with
  | nil => intro c h; cases h
  | cons x xs ih =>
    intro c h
    rw [List.dropWhile_cons] at h
    by_cases hx : p x = true
    · rw [if_pos hx] at h
      exact ih c h
    · rw [if_neg hx] at h
      cases h
      simp at hx
      simp [hx]

theorem head?_stripWith (p : Char → Bool) (l : List Char) (c : Char)
    (h : (stripWith p l).head? = some c) : p c = false := by
  have hd : (l.dropWhile p).head? = some c := by
    rw [← append_of_dropTrail p (l.dropWhile p)]
    exact head?_append_eq h
  exact head?_dropWhile p l c hd

theorem getLast?_dropTrail (p : Char → Bool) (l : List Char) (c : Char)
    (h : (dropTrail p l).getLast? = some c) : p c = false := by
  rw [dropTrail, List.getLast?_reverse] at h
  exact head?_dropWhile p l.reverse c h

theorem getLast?_stripWith (p : Char → Bool) (l : List Char) (c : Char)
    (h : (stripWith p l).getLast? = some c) : p c = false :=
  getLast?_dropTrail p (l.dropWhile p) c h

theorem mem_stripWith (p : Char → Bool) (l : List Char) (c : Char)
    (h : c ∈ stripWith p l) : c ∈ l := by
  obtain ⟨pre, post, hl⟩ := stripWith_decomp p l
  rw [← hl]
  exact List.mem_append.mpr (Or.inr (List.mem_append.mpr (Or.inl h)))

theorem mem_collapseWsAux :
    ∀ (l : List Char) (b : Bool) (c : Char), c ∈ collapseWsAux b l →
      c = '_' ∨ c ∈ l := by
  intro l
  induction l with
  | nil => intro b c h; cases h
  | cons x xs ih =>
    intro b c h
    by_cases hsp : pyIsSpace x = true
    · cases b with
      | true =>
        simp only [collapseWsAux, hsp, if_pos] at h
        rcases ih true c h with h1 | h2
        · exact Or.inl h1
        · exact Or.inr (List.mem_cons_of_mem x h2)
      | false =>
        simp only [collapseWsAux, hsp, if_pos] at h
        rcases List.mem_cons.mp h with h1 | h2
        · exact Or.inl h1
        rcases ih true c h2 with h3 | h4
        · exact Or.inl h3
        · exact Or.inr (List.mem_cons_of_mem x h4)
    · simp only [collapseWsAux, hsp] at h
      rw [if_neg (by decide : ¬ false = true)] at h
      rcases List.mem_cons.mp h with h1 | h2
      · exact Or.inr (h1 ▸ List.mem_cons_self x xs)
      rcases ih false c h2 with h3 | h4
      · exact Or.inl h3
      · exact Or.inr (List.mem_cons_of_mem x h4)

theorem rsplitHead_decomp (l : List Char) (h : l.contains '_' = true) :
    ∃ t, l = rsplitHead l ++ '_' :: t ∧ '_' ∉ t := by
  have hm0 : '_' ∈ l := by simpa using h
  have hm : '_' ∈ l.reverse := List.mem_reverse.mpr hm0
  obtain ⟨t', ht'⟩ := dropWhile_ne_mem '_' l.reverse hm
  have hsplit : rsplitHead l = t'.reverse := by
    rw [rsplitHead, if_pos h, ht']
    rfl
  refine ⟨(l.reverse.takeWhile (fun c => c != '_')).reverse, ?_, ?_⟩
  · conv_lhs => rw [← List.reverse_reverse l,
      ← List.takeWhile_append_dropWhile (fun c => c != '_') l.reverse]
    rw [ht', List.reverse_append, List.reverse_cons, hsplit, List.append_assoc]
    rfl
  · intro hmem
    have := List.mem_takeWhile_imp (List.mem_reverse.mp hmem)
    simp at this

theorem rsplitHead_prefix (l : List Char) : ∃ t, rsplitHead l ++ t = l := by
  by_cases h : l.contains '_' = true
  · obtain ⟨t, hl, _⟩ := rsplitHead_decomp l h
    exact ⟨'_' :: t, hl.symm⟩
  · refine ⟨[], ?_⟩
    rw [rsplitHead, if_neg h, List.append_nil]

theorem length_rsplitHead (l : List Char) : (rsplitHead l).length ≤ l.length := by
  obtain ⟨t, ht⟩ := rsplitHead_prefix l
  have : (rsplitHead l ++ t).length = l.length := by rw [ht]
  rw [List.length_append] at this
  omega

theorem mem_sanitize_core (text : List Char) (c : Char)
    (h : c ∈ sanitize_core text) : illegalChar c = false := by
  have h1 : c ∈ collapseWsAux false (text.filter (fun c => !illegalChar c)) :=
    mem_stripWith _ _ c h
  rcases mem_collapseWsAux _ false c h1 with h2 | h3
  · subst h2; decide
  · have := List.of_mem_filter h3
    simpa using this

theorem sanitize_filename_prefix_core (text : List Char) (maxLength : Nat) :
    ∃ t, sanitize_filename text maxLength ++ t = sanitize_core text := by
  rw [sanitize_filename]
  by_cases h : maxLength < (sanitize_core text).length
  · rw [if_pos h]
    obtain ⟨t1, ht1⟩ := rsplitHead_prefix ((sanitize_core text).take maxLength)
    refine ⟨t1 ++ (sanitize_core text).drop maxLength, ?_⟩
    rw [← List.append_assoc, ht1, List.take_append_drop]
  · rw [if_neg h]
    exact ⟨[], List.append_nil _⟩

set_option maxRecDepth 40000 in
/-- C2 counterexample: the claim asserts the output never has a trailing
separator and that truncation never splits inside a whitespace-delimited
word.  For `'a' * 97 ++ " _bcd"` the cleaned text is 102 characters with a
double underscore, and `text[:100].rsplit('_', 1)[0]` ends in `'_'`; for
`'a' * 150` (a single 150-character word, no separator anywhere) the
truncated prefix has no underscore and the result is the word cut at 100
characters. -/
theorem sanitize_filename_claim_cex :
    (sanitize_filename (List.replicate 97 'a' ++ (" _bcd".toList)) 100).getLast? =
      some '_' ∧
      sanitize_filename (List.replicate 150 'a') 100 = List.replicate 100 'a' := by
  constructor
  · decide
  · decide

/-- C2 (amended): for every input and maximum, the output of
`sanitize_filename` contains no illegal character, has length at most the
maximum, and never starts with a separator (`'.'` or `'_'`); when the
cleaned text already fits (no truncation) it also never ends with a
separator; and when truncation occurs and the truncated prefix contains an
underscore, the cut happens exactly at the last underscore of that prefix
(the suffix after the cut contains no further underscore).  After
truncation the result may end in `'_'` or cut inside a word when no
separator is available — the original claim fails there. -/
theorem sanitize_filename_guarantees (text : List Char) (maxLength : Nat) :
    (∀ c ∈ sanitize_filename text maxLength, illegalChar c = false) ∧
      (sanitize_filename text maxLength).length ≤ maxLength ∧
      (∀ c, (sanitize_filename text maxLength).head? = some c →
        isStripChar c = false) ∧
      ((sanitize_core text).length ≤ maxLength →
        ∀ c, (sanitize_filename text maxLength).getLast? = some c →
          isStripChar c = false) ∧
      (maxLength < (sanitize_core text).length →
        ((sanitize_core text).take maxLength).contains '_' = true →
        ∃ t, (sanitize_core text).take maxLength =
          sanitize_filename text maxLength ++ '_' :: t ∧ '_' ∉ t) := by
  obtain ⟨tcore, htcore⟩ := sanitize_filename_prefix_core text maxLength
  refine ⟨?_, ?_, ?_, ?_, ?_⟩
  · intro c hc
    refine mem_sanitize_core text c ?_
    rw [← htcore]
    exact List.mem_append.mpr (Or.inl hc)
  · rw [sanitize_filename]
    by_cases h : maxLength < (sanitize_core text).length
    · rw [if_pos h]
      have h1 := length_rsplitHead ((sanitize_core text).take maxLength)
      have h2 := List.length_take_le maxLength (sanitize_core text)
      omega
    · rw [if_neg h]
      omega
  · intro c hc
    have hcore : (sanitize_core text).head? = some c := by
      rw [← htcore]
      exact head?_append_eq hc
    exact head?_stripWith isStripChar _ c hcore
  · intro hle c hc
    rw [sanitize_filename, if_neg (by omega)] at hc
    exact getLast?_stripWith isStripChar _ c hc
  · intro hlt hus
    obtain ⟨t, hdec, hnot⟩ := rsplitHead_decomp ((sanitize_core text).take maxLength) hus
    refine ⟨t, ?_, hnot⟩
    rw [sanitize_filename, if_pos hlt]
    exact hdec

theorem sanitize_filename_guarantees_witness :
    (sanitize_core ("My Title  Test".toList)).length ≤ 100 ∧
      (sanitize_filename ("My Title  Test".toList) 100).getLast? = some 't' ∧
      isStripChar 't' = false :=
  ⟨by decide, by decide,
    (sanitize_filename_guarantees ("My Title  Test".toList) 100).2.2.2.1
      (by decide) 't' (by decide)⟩

/-! ## Boilerplate stripping (`strip_gutenberg_headers`) -/

theorem findMarkerLoop_eq_findSome? (ms : List (List Tok)) (text : List Char) :
    findMarkerLoop ms text = ms.findSome? (fun m => reSearch m text) := by
  induction ms with
  | nil => rfl
  | cons m rest ih =>
    rw [findMarkerLoop, List.findSome?_cons]
    cases reSearch m text with
    | some r => rfl
    | none => exact ih

/-- C3: the start offset is the end of the first start-marker pattern (in
list order) that matches, defaulting to `0`; the end offset is the start of
the first matching end-marker pattern, defaulting to the text length; the
result is the substring between them, trimmed of surrounding whitespace —
in particular a text matching neither marker list is returned whole, only
whitespace-trimmed. -/
theorem strip_gutenberg_headers_marker_resolution (text : List Char) :
    strip_gutenberg_headers text =
      stripWith pyIsSpace
        ((text.drop
            (((start_markers.findSome? (fun m => reSearch m text)).map Prod.snd).getD 0)).take
          ((((end_markers.findSome? (fun m => reSearch m text)).map Prod.fst).getD
              text.length) -
            ((start_markers.findSome? (fun m => reSearch m text)).map Prod.snd).getD 0)) ∧
      ((∀ m ∈ start_markers, reSearch m text = none) →
        (∀ m ∈ end_markers, reSearch m text = none) →
        strip_gutenberg_headers text = stripWith pyIsSpace text) := by
  have hstart : resolve_start_pos text =
      ((start_markers.findSome? (fun m => reSearch m text)).map Prod.snd).getD 0 := by
    rw [resolve_start_pos, findMarkerLoop_eq_findSome?]
    cases start_markers.findSome? (fun m => reSearch m text) <;> rfl
  have hend : resolve_end_pos text =
      ((end_markers.findSome? (fun m => reSearch m text)).map Prod.fst).getD
        text.length := by
    rw [resolve_end_pos, findMarkerLoop_eq_findSome?]
    cases end_markers.findSome? (fun m => reSearch m text) <;> rfl
  constructor
  · rw [strip_gutenberg_headers, hstart, hend]
  · intro hs he
    have hs0 : start_markers.findSome? (fun m => reSearch m text) = none :=
      List.findSome?_eq_none_iff.mpr hs
    have he0 : end_markers.findSome? (fun m => reSearch m text) = none :=
      List.findSome?_eq_none_iff.mpr he
    rw [strip_gutenberg_headers, hstart, hend, hs0, he0]
    simp

theorem strip_gutenberg_headers_marker_resolution_witness :
    (∀ m ∈ start_markers, reSearch m ("  hi there  ".toList) = none) ∧
      (∀ m ∈ end_markers, reSearch m ("  hi there  ".toList) = none) ∧
      strip_gutenberg_headers ("  hi there  ".toList) =
        stripWith pyIsSpace ("  hi there  ".toList) :=
  ⟨by decide, by decide,
    (strip_gutenberg_headers_marker_resolution ("  hi there  ".toList)).2
      (by decide) (by decide)⟩

/-- C9: the result of `strip_gutenberg_headers` is always a contiguous
substring of the input (the slice between the resolved offsets, further
trimmed of surrounding whitespace); when the resolved end offset is at or
before the resolved start offset, the slice — and hence the result — is
empty; the function is total. -/
theorem strip_gutenberg_headers_substring (text : List Char) :
    (∃ pre post, pre ++ (strip_gutenberg_headers text ++ post) = text) ∧
      (resolve_end_pos text ≤ resolve_start_pos text →
        strip_gutenberg_headers text = []) := by
  constructor
  · obtain ⟨pre1, post1, hmid⟩ := stripWith_decomp pyIsSpace
      ((text.drop (resolve_start_pos text)).take
        (resolve_end_pos text - resolve_start_pos text))
    refine ⟨text.take (resolve_start_pos text) ++ pre1,
      post1 ++ (text.drop (resolve_start_pos text)).drop
        (resolve_end_pos text - resolve_start_pos text), ?_⟩
    have htext : text = text.take (resolve_start_pos text) ++
        (((text.drop (resolve_start_pos text)).take
            (resolve_end_pos text - resolve_start_pos text) ++
          (text.drop (resolve_start_pos text)).drop
            (resolve_end_pos text - resolve_start_pos text))) := by
      rw [List.take_append_drop, List.take_append_drop]
    rw [← hmid] at htext
    conv_rhs => rw [htext]
    rw [strip_gutenberg_headers]
    simp [List.append_assoc]
  · intro h
    rw [strip_gutenberg_headers, Nat.sub_eq_zero_of_le h]
    rfl

set_option maxRecDepth 100000 in
theorem strip_gutenberg_headers_substring_witness :
    (resolve_end_pos
        (("END OF THIS PROJECT GUTENBERG EBOOK " ++
          "START OF THIS PROJECT GUTENBERG EBOOK").toList) ≤
      resolve_start_pos
        (("END OF THIS PROJECT GUTENBERG EBOOK " ++
          "START OF THIS PROJECT GUTENBERG EBOOK").toList)) ∧
      strip_gutenberg_headers
        (("END OF THIS PROJECT GUTENBERG EBOOK " ++
          "START OF THIS PROJECT GUTENBERG EBOOK").toList) = [] :=
  ⟨by decide,
    (strip_gutenberg_headers_substring
      (("END OF THIS PROJECT GUTENBERG EBOOK " ++
        "START OF THIS PROJECT GUTENBERG EBOOK").toList)).2 (by decide)⟩
